import Mathlib

/-!
Verification of the framed message channel of `christmas-tree-rs`.

The repository exchanges typed `Message` values over a raw serial byte
stream.  A message is serialized with the `postcard` crate (tagged-variant
binary format with LEB128 varints), byte-stuffed with COBS so that the
reserved delimiter byte `0x00` cannot occur inside the payload, and
terminated with a single `0x00` delimiter.  Two receive assemblers exist:
`server/src/messages.rs` (one-byte resync on decode failure) and
`firmware/src/messages.rs` (whole-frame discard with a surfaced error).

Bytes are modelled as `Nat` (the Rust code uses `u8`; well-formedness
predicates record the `< 256` bound where a claim quantifies over
constructible Rust values).  Fallible operations return `Option` or a
dedicated result inductive.  Recursive functions whose Rust counterparts
are loops consuming their input are written with an explicit fuel
parameter so that they are structurally recursive and kernel-computable;
the fuel is always instantiated with the input length plus one, which is
shown (or immediately visible) to be sufficient.
-/

/-- RGB color value, from `common/src/message.rs` (`struct Rgb`).
Fields are `u8` in Rust; modelled as `Nat` with a well-formedness bound. -/
structure Rgb where
  r : Nat
  g : Nat
  b : Nat
deriving DecidableEq, Repr

/-- The five log levels carried by `SerializableLogLevel`
(`log::Level`: Error, Warn, Info, Debug, Trace). -/
inductive LogLevel
  | error
  | warn
  | info
  | debug
  | trace
deriving DecidableEq, Repr

/-- Message type enum from `common/src/message.rs`.  The payload structs
`SetLedsPayload { leds }` and `LogPayload { level, content }` are inlined
into the constructors; the `String` content is modelled as its UTF-8 byte
sequence. -/
inductive Message
  | heartbeat
  | setLeds (leds : List Rgb)
  | log (level : LogLevel) (content : List Nat)
deriving DecidableEq, Repr

/-- A constructible Rust `Rgb` has `u8` components. -/
def Rgb.wf (c : Rgb) : Prop := c.r < 256 ∧ c.g < 256 ∧ c.b < 256

instance (c : Rgb) : Decidable c.wf :=
  inferInstanceAs (Decidable (_ ∧ _ ∧ _))

/-- A constructible Rust `Message`: all bytes in range.  (The level is one
of the five `LogLevel` constructors by construction.) -/
def Message.wf : Message → Prop
  | .heartbeat => True
  | .setLeds leds => ∀ c ∈ leds, c.wf
  | .log _ content => ∀ b ∈ content, b < 256

instance (m : Message) : Decidable m.wf :=
  match m with
  | .heartbeat => inferInstanceAs (Decidable True)
  | .setLeds leds => inferInstanceAs (Decidable (∀ c ∈ leds, c.wf))
  | .log _ content => inferInstanceAs (Decidable (∀ b ∈ content, b < 256))

/-- Modelled from the spec: the `postcard` crate (an external dependency,
not under `src/`) encodes unsigned integers as LEB128 varints: seven data
bits per byte, least significant group first, high bit set on every byte
except the last.  Fuel-structural version; depth is at most `n` divisions
by 128, so fuel `n + 1` always suffices. -/
def varintEncF : Nat → Nat → List Nat
  | 0, n => [n % 128]
  | fuel + 1, n =>
    if n < 128 then [n] else (n % 128 + 128) :: varintEncF fuel (n / 128)

/-- LEB128 varint encoding of `n` (see `varintEncF`). -/
def varintEnc (n : Nat) : List Nat := varintEncF (n + 1) n

/-- Modelled from the spec: `postcard` varint decoding, inverse of
`varintEnc`.  Returns the decoded value and the unread remainder.
(The real decoder bounds the value by the target integer width; values
that large are unreachable from the encodings considered here.) -/
def varintDec : List Nat → Option (Nat × List Nat)
  | [] => none
  | b :: r =>
    if b < 128 then some (b, r)
    else
      match varintDec r with
      | none => none
      | some (n, r2) => some (n * 128 + (b - 128), r2)

/-- Modelled from the spec: `postcard` serializes an `Rgb` struct as its
three `u8` fields, one raw byte each. -/
def encRgb (c : Rgb) : List Nat := [c.r, c.g, c.b]

/-- Modelled from the spec: `postcard` serializes a string or byte
sequence as a varint length prefix followed by the raw bytes. -/
def encBytes (s : List Nat) : List Nat := varintEnc s.length ++ s

/-- The ASCII bytes written by `SerializableLogLevel::serialize`
("error" / "warn" / "info" / "debug" / "trace"). -/
def levelName : LogLevel → List Nat
  | .error => [101, 114, 114, 111, 114]
  | .warn => [119, 97, 114, 110]
  | .info => [105, 110, 102, 111]
  | .debug => [100, 101, 98, 117, 103]
  | .trace => [116, 114, 97, 99, 101]

/-- The level-name match in `SerializableLogLevel::deserialize`: any
string other than the five names is rejected. -/
def levelOfName (s : List Nat) : Option LogLevel :=
  if s = [101, 114, 114, 111, 114] then some .error
  else if s = [119, 97, 114, 110] then some .warn
  else if s = [105, 110, 102, 111] then some .info
  else if s = [100, 101, 98, 117, 103] then some .debug
  else if s = [116, 114, 97, 99, 101] then some .trace
  else none

/-- `Message::to_bytes` (`postcard::to_allocvec`): varint variant tag,
then the variant payload.  `Heartbeat` ↦ tag 0, `SetLeds` ↦ tag 1
followed by the varint LED count and the raw RGB triples, `Log` ↦ tag 2
followed by the level name string and the content string. -/
def toBytes : Message → List Nat
  | .heartbeat => varintEnc 0
  | .setLeds leds => varintEnc 1 ++ varintEnc leds.length ++ (leds.map encRgb).flatten
  | .log lv content => varintEnc 2 ++ encBytes (levelName lv) ++ encBytes content

/-- Reads `n` RGB triples (three raw bytes each), as `postcard`
deserializes `Vec<Rgb>` after its length prefix. -/
def decRgbs : Nat → List Nat → Option (List Rgb × List Nat)
  | 0, l => some ([], l)
  | n + 1, r :: g :: b :: l =>
    match decRgbs n l with
    | none => none
    | some (cs, rest) => some (⟨r, g, b⟩ :: cs, rest)
  | _ + 1, _ => none

/-- Reads a varint-length-prefixed byte string. -/
def decBytes (l : List Nat) : Option (List Nat × List Nat) :=
  match varintDec l with
  | none => none
  | some (n, r) => if r.length < n then none else some (r.take n, r.drop n)

/-- `Message::from_bytes` (`postcard::from_bytes`): parse the varint tag
and the matching payload; reject unknown tags, unknown level names and
truncated input.  Trailing bytes are ignored, as `postcard::from_bytes`
discards the unused remainder.  (The UTF-8 validity check on strings is
not modelled; string content is carried as raw bytes.) -/
def fromBytes (l : List Nat) : Option Message :=
  match varintDec l with
  | none => none
  | some (tag, r) =>
    match tag with
    | 0 => some .heartbeat
    | 1 =>
      match varintDec r with
      | none => none
      | some (n, r2) =>
        match decRgbs n r2 with
        | none => none
        | some (leds, _) => some (.setLeds leds)
    | 2 =>
      match decBytes r with
      | none => none
      | some (s, r2) =>
        match levelOfName s with
        | none => none
        | some lv =>
          match decBytes r2 with
          | none => none
          | some (c, _) => some (.log lv c)
    | _ => none

/-- Errors from the two `MessageError` enums in `server/src/messages.rs`
and `firmware/src/messages.rs`, merged into one type (the firmware adds
`DecodeError`; the server adds `ReadError`/`PortError`; port opening is
not modelled). -/
inductive MsgError
  | serialization
  | deserialization
  | decodeError
  | writeError
  | readError
  | lockError
  | timeout
  | bufferOverflow
deriving DecidableEq, Repr

/-- Modelled from the spec: COBS byte stuffing as performed by the `cobs`
crate (an external dependency, not under `src/`): the payload is split
into runs of up to 254 non-zero bytes; each run is emitted as a header
byte (run length + 1, hence never 0) followed by the run; a run shorter
than 254 ends at a zero byte of the input, which is consumed and not
emitted; a header of 255 marks a full run after which no zero is implied.
`cobsGroup` extracts the leading run: up to 254 bytes before the first
zero. -/
def cobsGroup (l : List Nat) : List Nat := (l.takeWhile (fun x => x != 0)).take 254

/-- COBS stuffing, one run per step (see `cobsGroup`).  Fuel-structural:
every recursive call consumes at least one input byte, so fuel
`input length + 1` suffices. -/
def cobsEncodeF : Nat → List Nat → List Nat
  | 0, _ => []
  | fuel + 1, l =>
    match l.drop (cobsGroup l).length with
    | [] => ((cobsGroup l).length + 1) :: cobsGroup l
    | d :: rest2 =>
      if (cobsGroup l).length = 254 then 255 :: (cobsGroup l ++ cobsEncodeF fuel (d :: rest2))
      else ((cobsGroup l).length + 1) :: (cobsGroup l ++ cobsEncodeF fuel rest2)

/-- COBS stuffing of a payload (see `cobsEncodeF`).  This is the byte
transform shared by `postcard::to_stdvec_cobs` (server send path) and
`cobs::encode_vec` (firmware send path), without the trailing frame
delimiter. -/
def cobsEncode (l : List Nat) : List Nat := cobsEncodeF (l.length + 1) l

/-- Modelled from the spec: COBS unstuffing as performed by the `cobs`
crate on the delimiter-free body of a frame: read a header byte `h`
(zero is malformed), take `h - 1` data bytes (a zero among them or
truncated input is malformed), emit them, and if input remains emit an
implied zero unless the header was 255, then continue.  Fuel-structural:
each call consumes at least the header byte. -/
def cobsDecodeF : Nat → List Nat → Option (List Nat)
  | 0, _ => none
  | _ + 1, [] => some []
  | fuel + 1, h :: r =>
    if h = 0 then none
    else if r.length < h - 1 then none
    else
      let dat := r.take (h - 1)
      if 0 ∈ dat then none
      else
        match r.drop (h - 1) with
        | [] => some dat
        | x :: r2 =>
          match cobsDecodeF fuel (x :: r2) with
          | none => none
          | some d => some (if h = 255 then dat ++ d else dat ++ 0 :: d)

/-- COBS unstuffing of a frame body (see `cobsDecodeF`).  This is the
inverse transform used by `postcard::from_bytes_cobs` (server) and
`cobs::decode_vec` (firmware); both are applied to the bytes strictly
before the first delimiter, which are zero-free by construction. -/
def cobsDecode (l : List Nat) : Option (List Nat) := cobsDecodeF (l.length + 1) l

/-- The complete frame for a message as produced by both send paths:
`server/src/messages.rs` (`postcard::to_stdvec_cobs`, which appends the
`0x00` sentinel itself) and `firmware/src/messages.rs`
(`cobs::encode_vec` followed by `encoded.push(FRAME_DELIMITER)`). -/
def frameBytes (m : Message) : List Nat := cobsEncode (toBytes m) ++ [0]

/-- Unstuff-and-deserialize of a frame body (the bytes strictly before
the first delimiter).  Models `postcard::from_bytes_cobs::<Message>` on
the server and `cobs::decode_vec` + `Message::from_bytes` on the
firmware, which agree on zero-free input. -/
def unframe (z : List Nat) : Option Message :=
  match cobsDecode z with
  | none => none
  | some db => fromBytes db

/-- Result of one `try_receive` buffer pass: at most one decoded message,
or nothing, or an error. -/
inductive PollOut
  | gotMsg (m : Message)
  | noMsg
  | fail (e : MsgError)
deriving DecidableEq, Repr

/-- The buffer-processing loop of `MessageHandler::try_receive` in
`server/src/messages.rs` (lines 110-162), as a function of the receive
buffer: find the first delimiter; if none, clear and report
`BufferOverflow` when more than 4096 bytes are buffered, else wait for
more data; if found, try to decode the frame: on success drain it
(delimiter included) and return the message, on failure discard one
leading byte and rescan (the source's `len() <= 1` case clears the
buffer and breaks, which coincides with rescanning the empty tail).
Returns the poll outcome and the new buffer. -/
def scanServer : List Nat → PollOut × List Nat
  | [] => (.noMsg, [])
  | b :: t =>
    let buf := b :: t
    let z := buf.takeWhile (fun x => x != 0)
    if z.length = buf.length then
      if buf.length > 4096 then (.fail .bufferOverflow, []) else (.noMsg, buf)
    else
      match unframe z with
      | some m => (.gotMsg m, buf.drop (z.length + 1))
      | none => scanServer t

/-- The buffer-processing step of `MessageHandler::try_receive` in
`firmware/src/messages.rs` (lines 104-137): find the first delimiter; if
none, overflow check as on the server; if found, drain the frame
(delimiter included) first, then surface `DecodeError` on COBS failure or
`Deserialization` on postcard failure, else return the message. -/
def scanFirmware : List Nat → PollOut × List Nat
  | [] => (.noMsg, [])
  | b :: t =>
    let buf := b :: t
    let z := buf.takeWhile (fun x => x != 0)
    if z.length = buf.length then
      if buf.length > 4096 then (.fail .bufferOverflow, []) else (.noMsg, buf)
    else
      let rest := buf.drop (z.length + 1)
      match cobsDecode z with
      | none => (.fail .decodeError, rest)
      | some db =>
        match fromBytes db with
        | none => (.fail .deserialization, rest)
        | some m => (.gotMsg m, rest)

/-- Repeated `try_receive` calls on the server until one reports "no
complete frame": collects the emitted messages and errors in order and
returns the final buffer.  `fuel` bounds the number of calls; every call
that does not stop either drains at least the delimiter byte or clears
the buffer, so `buffer length + 1` calls always reach the stopping
case. -/
def drainN : Nat → List Nat → List Message × List MsgError × List Nat
  | 0, buf => ([], [], buf)
  | fuel + 1, buf =>
    match scanServer buf with
    | (.noMsg, b2) => ([], [], b2)
    | (.gotMsg m, b2) =>
      let r := drainN fuel b2
      (m :: r.1, r.2.1, r.2.2)
    | (.fail e, b2) =>
      let r := drainN fuel b2
      (r.1, e :: r.2.1, r.2.2)

/-- Feeding the server assembler a sequence of read chunks: each chunk is
appended to the buffer (the read loop in `try_receive` drains all
currently available bytes) and then `try_receive` is called repeatedly
until it reports "no complete frame".  Returns all messages and errors in
order plus the final buffer. -/
def runChunks : List (List Nat) → List Nat → List Message × List MsgError × List Nat
  | [], buf => ([], [], buf)
  | c :: cs, buf =>
    let b2 := buf ++ c
    let r := drainN (b2.length + 1) b2
    let r2 := runChunks cs r.2.2
    (r.1 ++ r2.1, r.2.1 ++ r2.2.1, r2.2.2)

/-- The concatenated frames of a message sequence. -/
def framesOf : List Message → List Nat
  | [] => []
  | m :: ms => frameBytes m ++ framesOf ms

/-- Outcome of one transport read, as seen by `try_receive`: bytes, no
data available, a would-block/timeout condition, or a read error. -/
inductive ReadOutcome
  | data (bs : List Nat)
  | noData
  | timedOut
  | readErr
deriving DecidableEq, Repr

/-- One `try_receive` call on the server (lines 64-163 of
`server/src/messages.rs`) with a single transport read outcome: read
bytes are appended to the buffer and the buffer is scanned; a timeout
("would block") or empty read just scans the existing buffer; any other
read error is returned as `ReadError` immediately, before the buffer is
touched.  (The source's read loop repeats reads until no data; one
outcome per poll is modelled.) -/
def serverTryReceive (r : ReadOutcome) (buf : List Nat) : PollOut × List Nat :=
  match r with
  | .data bs => scanServer (buf ++ bs)
  | .noData => scanServer buf
  | .timedOut => scanServer buf
  | .readErr => (.fail .readError, buf)

/-- One `try_receive` call on the firmware (lines 63-140 of
`firmware/src/messages.rs`): read bytes are appended and the buffer is
scanned; the firmware treats every failed or empty read alike as "no
data available" (`Err(_) => None`) and proceeds to scan the buffered
bytes. -/
def firmwareTryReceive (r : ReadOutcome) (buf : List Nat) : PollOut × List Nat :=
  match r with
  | .data bs => scanFirmware (buf ++ bs)
  | .noData => scanFirmware buf
  | .timedOut => scanFirmware buf
  | .readErr => scanFirmware buf

/-- Outcome of one transport write attempt in `MessageHandler::send`:
`accepted n` models `Ok(n)` from `write`, `wErr` models `Err(_)`. -/
inductive WriteOutcome
  | accepted (n : Nat)
  | wErr
deriving DecidableEq, Repr

/-- Result of `MessageHandler::send`; on success the transcript of bytes
handed to the transport, in order, is recorded. -/
inductive SendResult
  | ok (written : List Nat)
  | error (e : MsgError)
deriving DecidableEq, Repr

/-- The partial-write loop of `MessageHandler::send` (both variants):
while bytes remain, issue a write; `Ok(0)` or `Err` aborts with no
result, `Ok(n)` advances past the accepted bytes.  The write outcomes are
an oracle indexed by attempt number.  Returns the concatenation of the
accepted byte slices when the loop completes.  Fuel-structural: each
successful write consumes at least one byte. -/
def sendLoopF : Nat → (Nat → WriteOutcome) → Nat → List Nat → Option (List Nat)
  | 0, _, _, _ => none
  | _ + 1, _, _, [] => some []
  | fuel + 1, f, i, x :: rem =>
    match f i with
    | .wErr => none
    | .accepted 0 => none
    | .accepted (n + 1) =>
      match sendLoopF fuel f (i + 1) ((x :: rem).drop (n + 1)) with
      | none => none
      | some w => some ((x :: rem).take (n + 1) ++ w)

/-- The write loop of `send` on the full frame (see `sendLoopF`). -/
def sendLoop (f : Nat → WriteOutcome) (rem : List Nat) : Option (List Nat) :=
  sendLoopF (rem.length + 1) f 0 rem

/-- `MessageHandler::send` (`server/src/messages.rs` lines 33-56,
`firmware/src/messages.rs` lines 29-57): frame the message, loop over
partial writes, and flush; a zero-progress write, a write error or a
flush failure yields `WriteError`. -/
def send (f : Nat → WriteOutcome) (flushOk : Bool) (m : Message) : SendResult :=
  match sendLoop f (frameBytes m) with
  | none => .error .writeError
  | some w => if flushOk then .ok w else .error .writeError

/-- Outcome of one `try_receive` poll as seen by the blocking `receive`
loop. -/
inductive TryOut
  | msg (m : Message)
  | nothing
  | failed (e : MsgError)
deriving DecidableEq, Repr

/-- Result of the blocking `receive`. -/
inductive RecvResult
  | ok (m : Message)
  | error (e : MsgError)
deriving DecidableEq, Repr

/-- `MessageHandler::receive(timeout)` (`server/src/messages.rs` lines
167-183, `firmware/src/messages.rs` lines 144-158): loop `try_receive`;
a message or an error is returned immediately; on an empty poll, give up
with `Timeout` once the deadline has passed, else poll again (the server
sleeps 10 ms first).  Real elapsed time is modelled as fuel: the number
of further empty polls the deadline still allows.  The poll outcomes are
an oracle indexed by poll number. -/
def receiveLoop (f : Nat → TryOut) : Nat → Nat → RecvResult
  | 0, i =>
    match f i with
    | .msg m => .ok m
    | .failed e => .error e
    | .nothing => .error .timeout
  | fuel + 1, i =>
    match f i with
    | .msg m => .ok m
    | .failed e => .error e
    | .nothing => receiveLoop f fuel (i + 1)

/-- The oversized message used to exhibit chunking dependence of the
receive assembler: 1400 LEDs encode to 4203 payload bytes, whose stuffed
frame exceeds the 4096-byte buffer cap. -/
def msgBig : Message := .setLeds (List.replicate 1400 ⟨255, 255, 255⟩)

/-- Varint round-trip, fuel-general: decoding an encoding (with any
trailing bytes) recovers the value and the trailer. -/
theorem varint_rt_fuel : ∀ fuel n rest, n < fuel →
    varintDec (varintEncF fuel n ++ rest) = some (n, rest) := by
  intro fuel
  induction fuel with
  | zero => intro n rest h; omega
  | succ f ih =>
    intro n rest h
    by_cases hn : n < 128
    · simp [varintEncF, hn, varintDec]
    · have hd : n / 128 < n := Nat.div_lt_self (by omega) (by omega)
      have hrec := ih (n / 128) rest (by omega)
      simp only [varintEncF, if_neg hn, List.cons_append, varintDec]
      rw [if_neg (by omega)]
      rw [hrec]
      have hmod := Nat.div_add_mod n 128
      simp
      omega

/-- Varint round-trip for the wrapper. -/
theorem varint_rt (n : Nat) (rest : List Nat) :
    varintDec (varintEnc n ++ rest) = some (n, rest) :=
  varint_rt_fuel (n + 1) n rest (Nat.lt_succ_self n)

/-- Length-prefixed byte strings round-trip. -/
theorem decBytes_encBytes (s rest : List Nat) :
    decBytes (encBytes s ++ rest) = some (s, rest) := by
  simp only [encBytes, List.append_assoc, decBytes, varint_rt]
  rw [if_neg (by simp)]
  simp [List.take_left, List.drop_left]

/-- The five level names are recognized. -/
theorem levelOfName_levelName (lv : LogLevel) :
    levelOfName (levelName lv) = some lv := by
  cases lv <;> decide

/-- Reading back the serialized RGB triples recovers the list and leaves
the trailer unread. -/
theorem decRgbs_enc : ∀ (leds : List Rgb) (rest : List Nat),
    decRgbs leds.length ((leds.map encRgb).flatten ++ rest) = some (leds, rest) := by
  intro leds
  induction leds with
  | nil => intro rest; simp [decRgbs]
  | cons c cs ih =>
    intro rest
    cases c with
    | mk r g b =>
      simp only [List.map_cons, List.flatten_cons, encRgb, List.length_cons,
        List.cons_append, List.append_assoc]
      simp [decRgbs, ih rest]

/-- Varint round-trip with an empty trailer. -/
theorem varint_rt_nil (n : Nat) : varintDec (varintEnc n) = some (n, []) := by
  simpa using varint_rt n []

/-- Byte-string round-trip with an empty trailer. -/
theorem decBytes_encBytes_nil (s : List Nat) :
    decBytes (encBytes s) = some (s, []) := by
  simpa using decBytes_encBytes s []

/-- RGB-list round-trip with an empty trailer. -/
theorem decRgbs_enc_nil (leds : List Rgb) :
    decRgbs leds.length (leds.map encRgb).flatten = some (leds, []) := by
  simpa using decRgbs_enc leds []

/-- The postcard round-trip for the message model: `from_bytes` of
`to_bytes` recovers the message. -/
theorem message_rt (m : Message) : fromBytes (toBytes m) = some m := by
  cases m with
  | heartbeat =>
    simp [fromBytes, toBytes, varint_rt_nil]
  | setLeds leds =>
    simp [fromBytes, toBytes, varint_rt, varint_rt_nil, decRgbs_enc, decRgbs_enc_nil]
  | log lv content =>
    simp [fromBytes, toBytes, varint_rt, varint_rt_nil, decBytes_encBytes,
      decBytes_encBytes_nil, levelOfName_levelName]

/-- The head of `dropWhile` falsifies the predicate. -/
theorem dropWhile_head_false {p : Nat → Bool} :
    ∀ (l : List Nat) {d : Nat} {r : List Nat}, l.dropWhile p = d :: r → p d = false := by
  intro l
  induction l with
  | nil => intro d r h; simp [List.dropWhile] at h
  | cons a t ih =>
    intro d r h
    by_cases ha : p a
    · rw [List.dropWhile_cons_of_pos ha] at h
      exact ih h
    · rw [List.dropWhile_cons_of_neg ha] at h
      cases h
      simpa using ha

/-- The leading COBS run contains no zero byte. -/
theorem cobsGroup_zero (l : List Nat) : 0 ∉ cobsGroup l := by
  intro hmem
  have := List.mem_takeWhile_imp (List.take_subset 254 _ hmem)
  simp at this

/-- The leading COBS run is the prefix of the input of its length. -/
theorem cobsGroup_take (l : List Nat) :
    l.take (cobsGroup l).length = cobsGroup l := by
  have ht : cobsGroup l ++ ((l.takeWhile (fun x => x != 0)).drop 254
      ++ l.dropWhile (fun x => x != 0)) = l := by
    rw [cobsGroup, ← List.append_assoc, List.take_append_drop,
      List.takeWhile_append_dropWhile]
  have h := congrArg (List.take (cobsGroup l).length) ht
  rw [List.take_left] at h
  exact h.symm

/-- The input splits as its leading run followed by the rest. -/
theorem cobsGroup_append_drop (l : List Nat) :
    cobsGroup l ++ l.drop (cobsGroup l).length = l := by
  have h := List.take_append_drop (cobsGroup l).length l
  rw [cobsGroup_take] at h
  exact h

/-- The leading COBS run has at most 254 bytes. -/
theorem cobsGroup_len_le (l : List Nat) : (cobsGroup l).length ≤ 254 := by
  simp only [cobsGroup, List.length_take]
  omega

/-- A short leading run is the whole zero-free prefix, so the input byte
after it (if any) is the zero that ended the run. -/
theorem cobsGroup_head_zero {l : List Nat} {d : Nat} {r : List Nat}
    (hlen : (cobsGroup l).length ≠ 254)
    (hd : l.drop (cobsGroup l).length = d :: r) : d = 0 := by
  have htw : cobsGroup l = l.takeWhile (fun x => x != 0) := by
    by_cases h1 : (l.takeWhile (fun x => x != 0)).length ≤ 254
    · exact List.take_of_length_le h1
    · exfalso
      apply hlen
      simp only [cobsGroup, List.length_take]
      omega
  rw [htw] at hd
  have h2 : l.drop (l.takeWhile (fun x => x != 0)).length
      = l.dropWhile (fun x => x != 0) := by
    have h := congrArg (List.drop (l.takeWhile (fun x => x != 0)).length)
      (List.takeWhile_append_dropWhile (fun x => x != 0) l)
    rw [List.drop_left] at h
    exact h.symm
  rw [h2] at hd
  have := dropWhile_head_false _ hd
  simpa using this

/-- Unfolding `cobsEncodeF` when the run exhausts the input. -/
theorem cobsEncodeF_eq_last {fuel : Nat} {l : List Nat}
    (h : l.drop (cobsGroup l).length = []) :
    cobsEncodeF (fuel + 1) l = ((cobsGroup l).length + 1) :: cobsGroup l := by
  simp only [cobsEncodeF, h]

/-- Unfolding `cobsEncodeF` on a full 254-byte run with more input. -/
theorem cobsEncodeF_eq_full {fuel : Nat} {l : List Nat} {d : Nat} {r2 : List Nat}
    (h : l.drop (cobsGroup l).length = d :: r2) (hg : (cobsGroup l).length = 254) :
    cobsEncodeF (fuel + 1) l = 255 :: (cobsGroup l ++ cobsEncodeF fuel (d :: r2)) := by
  simp only [cobsEncodeF, h, if_pos hg]

/-- Unfolding `cobsEncodeF` on a short run ended by a zero byte. -/
theorem cobsEncodeF_eq_mid {fuel : Nat} {l : List Nat} {d : Nat} {r2 : List Nat}
    (h : l.drop (cobsGroup l).length = d :: r2) (hg : (cobsGroup l).length ≠ 254) :
    cobsEncodeF (fuel + 1) l
      = ((cobsGroup l).length + 1) :: (cobsGroup l ++ cobsEncodeF fuel r2) := by
  simp only [cobsEncodeF, h, if_neg hg]

/-- COBS stuffing makes the output strictly longer than the input. -/
theorem cobsEncodeF_len : ∀ fuel (l : List Nat), l.length < fuel →
    l.length + 1 ≤ (cobsEncodeF fuel l).length := by
  intro fuel
  induction fuel with
  | zero => intro l h; omega
  | succ f ih =>
    intro l h
    have hlen : (cobsGroup l).length + (l.drop (cobsGroup l).length).length
        = l.length := by
      have := congrArg List.length (cobsGroup_append_drop l)
      simpa using this
    cases hrest : l.drop (cobsGroup l).length with
    | nil =>
      rw [hrest] at hlen
      simp only [List.length_nil, Nat.add_zero] at hlen
      rw [cobsEncodeF_eq_last hrest]
      simp
      omega
    | cons d rest2 =>
      rw [hrest] at hlen
      simp only [List.length_cons] at hlen
      by_cases hg : (cobsGroup l).length = 254
      · have hrec := ih (d :: rest2) (by simp; omega)
        simp only [List.length_cons] at hrec
        rw [cobsEncodeF_eq_full hrest hg]
        simp
        omega
      · have hrec := ih rest2 (by omega)
        rw [cobsEncodeF_eq_mid hrest hg]
        simp
        omega

/-- COBS stuffing never emits a zero byte: headers are in `1..255` and
data bytes come from zero-free runs. -/
theorem cobsEncodeF_zero : ∀ fuel (l : List Nat), l.length < fuel →
    0 ∉ cobsEncodeF fuel l := by
  intro fuel
  induction fuel with
  | zero => intro l h; omega
  | succ f ih =>
    intro l h
    have hlen : (cobsGroup l).length + (l.drop (cobsGroup l).length).length
        = l.length := by
      have := congrArg List.length (cobsGroup_append_drop l)
      simpa using this
    have hgz := cobsGroup_zero l
    cases hrest : l.drop (cobsGroup l).length with
    | nil =>
      rw [cobsEncodeF_eq_last hrest]
      intro hc
      rcases List.mem_cons.mp hc with hc | hc
      · omega
      · exact hgz hc
    | cons d rest2 =>
      rw [hrest] at hlen
      simp only [List.length_cons] at hlen
      by_cases hg : (cobsGroup l).length = 254
      · have hrec := ih (d :: rest2) (by simp; omega)
        rw [cobsEncodeF_eq_full hrest hg]
        intro hc
        rcases List.mem_cons.mp hc with hc | hc
        · omega
        · rcases List.mem_append.mp hc with hc | hc
          · exact hgz hc
          · exact hrec hc
      · have hrec := ih rest2 (by omega)
        rw [cobsEncodeF_eq_mid hrest hg]
        intro hc
        rcases List.mem_cons.mp hc with hc | hc
        · omega
        · rcases List.mem_append.mp hc with hc | hc
          · exact hgz hc
          · exact hrec hc

/-- No zero byte occurs in a stuffed payload. -/
theorem cobsEncode_zero (l : List Nat) : 0 ∉ cobsEncode l :=
  cobsEncodeF_zero (l.length + 1) l (Nat.lt_succ_self _)

/-- A stuffed payload is strictly longer than the payload. -/
theorem cobsEncode_len (l : List Nat) : l.length + 1 ≤ (cobsEncode l).length :=
  cobsEncodeF_len (l.length + 1) l (Nat.lt_succ_self _)

/-- Decoding a final COBS block: header `|S| + 1` followed by the
zero-free run `S` and nothing else yields `S`. -/
theorem cobsDecodeF_last {fuel : Nat} {S : List Nat} (hS : 0 ∉ S) :
    cobsDecodeF (fuel + 1) ((S.length + 1) :: S) = some S := by
  simp only [cobsDecodeF]
  rw [if_neg (by omega)]
  rw [if_neg (by omega : ¬ S.length < S.length + 1 - 1)]
  rw [show S.length + 1 - 1 = S.length by omega]
  rw [List.take_length]
  rw [if_neg hS]
  rw [List.drop_length]

/-- Decoding a full 254-byte COBS block followed by more encoded data:
no implied zero is inserted after a 255 header. -/
theorem cobsDecodeF_block_full {fuel : Nat} {S E2 D : List Nat}
    (hS : 0 ∉ S) (hg : S.length = 254) (hne : E2 ≠ [])
    (hrec : cobsDecodeF fuel E2 = some D) :
    cobsDecodeF (fuel + 1) (255 :: (S ++ E2)) = some (S ++ D) := by
  cases E2 with
  | nil => exact absurd rfl hne
  | cons x r2 =>
    have hdat : (S ++ x :: r2).take (255 - 1) = S := by
      rw [show (255 : Nat) - 1 = S.length by omega]
      exact List.take_left _ _
    have hdrop : (S ++ x :: r2).drop (255 - 1) = x :: r2 := by
      rw [show (255 : Nat) - 1 = S.length by omega]
      exact List.drop_left _ _
    simp only [cobsDecodeF]
    rw [if_neg (by omega)]
    rw [if_neg (by simp [hg] : ¬ (S ++ x :: r2).length < 255 - 1)]
    rw [hdat]
    rw [if_neg hS]
    rw [hdrop]
    simp [hrec]

/-- Decoding a short COBS block followed by more encoded data: the
implied zero consumed by the encoder is reinserted. -/
theorem cobsDecodeF_block_mid {fuel : Nat} {S E2 D : List Nat}
    (hS : 0 ∉ S) (hg : S.length < 254) (hne : E2 ≠ [])
    (hrec : cobsDecodeF fuel E2 = some D) :
    cobsDecodeF (fuel + 1) ((S.length + 1) :: (S ++ E2)) = some (S ++ 0 :: D) := by
  cases E2 with
  | nil => exact absurd rfl hne
  | cons x r2 =>
    have hdat : (S ++ x :: r2).take (S.length + 1 - 1) = S := by
      rw [show S.length + 1 - 1 = S.length by omega]
      exact List.take_left _ _
    have hdrop : (S ++ x :: r2).drop (S.length + 1 - 1) = x :: r2 := by
      rw [show S.length + 1 - 1 = S.length by omega]
      exact List.drop_left _ _
    simp only [cobsDecodeF]
    rw [if_neg (by omega)]
    rw [if_neg (by simp : ¬ (S ++ x :: r2).length < S.length + 1 - 1)]
    rw [hdat]
    rw [if_neg hS]
    rw [hdrop]
    have h255 : ¬ S.length + 1 = 255 := by omega
    simp [hrec, h255]

/-- COBS round-trip, fuel-general: unstuffing a stuffed payload recovers
the payload. -/
theorem cobs_rt_fuel : ∀ fuelE (l : List Nat) fuelD, l.length < fuelE →
    (cobsEncodeF fuelE l).length < fuelD →
    cobsDecodeF fuelD (cobsEncodeF fuelE l) = some l := by
  intro fuelE
  induction fuelE with
  | zero => intro l fuelD hl hE; omega
  | succ f ih =>
    intro l fuelD hl hE
    have hsplit := cobsGroup_append_drop l
    have hlen : (cobsGroup l).length + (l.drop (cobsGroup l).length).length
        = l.length := by
      have := congrArg List.length hsplit
      simpa using this
    have hgz := cobsGroup_zero l
    cases hrest : l.drop (cobsGroup l).length with
    | nil =>
      have hl2 : cobsGroup l = l := by
        rw [hrest] at hsplit
        simpa using hsplit
      rw [cobsEncodeF_eq_last hrest] at hE ⊢
      cases fuelD with
      | zero => simp at hE
      | succ d0 =>
        rw [cobsDecodeF_last hgz, hl2]
    | cons d rest2 =>
      rw [hrest] at hsplit hlen
      simp only [List.length_cons] at hlen
      by_cases hg : (cobsGroup l).length = 254
      · rw [cobsEncodeF_eq_full hrest hg] at hE ⊢
        have hlrec : (d :: rest2).length < f := by simp; omega
        have hEne : cobsEncodeF f (d :: rest2) ≠ [] := by
          have := cobsEncodeF_len f (d :: rest2) hlrec
          intro hc
          rw [hc] at this
          simp at this
        cases fuelD with
        | zero => simp at hE
        | succ d0 =>
          have hE2len : (cobsEncodeF f (d :: rest2)).length < d0 := by
            simp at hE
            omega
          rw [cobsDecodeF_block_full hgz hg hEne (ih (d :: rest2) d0 hlrec hE2len)]
          rw [hsplit]
      · have hd0 : d = 0 := cobsGroup_head_zero hg hrest
        rw [cobsEncodeF_eq_mid hrest hg] at hE ⊢
        have hlrec : rest2.length < f := by omega
        have hEne : cobsEncodeF f rest2 ≠ [] := by
          have := cobsEncodeF_len f rest2 hlrec
          intro hc
          rw [hc] at this
          simp at this
        cases fuelD with
        | zero => simp at hE
        | succ d0 =>
          have hE2len : (cobsEncodeF f rest2).length < d0 := by
            simp at hE
            omega
          have hglt : (cobsGroup l).length < 254 :=
            lt_of_le_of_ne (cobsGroup_len_le l) hg
          rw [cobsDecodeF_block_mid hgz hglt hEne (ih rest2 d0 hlrec hE2len)]
          rw [← hd0, hsplit]

/-- COBS round-trip for the wrappers. -/
theorem cobs_rt (l : List Nat) : cobsDecode (cobsEncode l) = some l :=
  cobs_rt_fuel (l.length + 1) l ((cobsEncode l).length + 1)
    (Nat.lt_succ_self _) (Nat.lt_succ_self _)

/-- Unstuffing-and-deserializing the stuffed encoding of a message
recovers the message. -/
theorem unframe_enc (m : Message) : unframe (cobsEncode (toBytes m)) = some m := by
  simp [unframe, cobs_rt, message_rt]

/-- A zero-free buffer is all taken by the delimiter scan. -/
theorem takeWhile_all {B : List Nat} (h : 0 ∉ B) :
    B.takeWhile (fun x => x != 0) = B := by
  induction B with
  | nil => rfl
  | cons b t ih =>
    have hb : b ≠ 0 := by intro hc; exact h (by simp [hc])
    rw [List.takeWhile_cons_of_pos (by simpa using hb)]
    rw [ih (by intro hc; exact h (List.mem_cons_of_mem _ hc))]

/-- The delimiter scan of `S ++ 0 :: R` stops exactly at the zero when
`S` is zero-free. -/
theorem takeWhile_split {S : List Nat} (R : List Nat) (h : 0 ∉ S) :
    (S ++ 0 :: R).takeWhile (fun x => x != 0) = S := by
  induction S with
  | nil => simp [List.takeWhile_cons]
  | cons s t ih =>
    have hs : s ≠ 0 := by intro hc; exact h (by simp [hc])
    rw [List.cons_append, List.takeWhile_cons_of_pos (by simpa using hs)]
    rw [ih (by intro hc; exact h (List.mem_cons_of_mem _ hc))]

/-- Dropping a frame body and its delimiter leaves the tail. -/
theorem drop_concat (S R : List Nat) : (S ++ 0 :: R).drop (S.length + 1) = R := by
  rw [show S ++ 0 :: R = (S ++ [0]) ++ R by simp]
  have h := List.drop_left (S ++ [0]) R
  simp at h
  simp [h]

/-- The server scan on a buffer starting with a decodable frame emits the
decoded message and drains the frame, delimiter included. -/
theorem scanServer_frame {S R : List Nat} {m : Message}
    (hS : 0 ∉ S) (hu : unframe S = some m) :
    scanServer (S ++ 0 :: R) = (.gotMsg m, R) := by
  have htw := takeWhile_split R hS
  have hlen : ¬ S.length = (S ++ 0 :: R).length := by simp
  have hdrop := drop_concat S R
  cases hSR : S ++ 0 :: R with
  | nil => simp at hSR
  | cons b t =>
    rw [hSR] at htw hlen hdrop
    simp only [scanServer]
    rw [htw, if_neg hlen, hu, hdrop]

/-- The firmware scan on a buffer whose first delimiter closes the body
`S`: the frame is drained either way, and the outcome is `DecodeError`,
`Deserialization` or the decoded message depending on where `S` fails. -/
theorem scanFirmware_split {S : List Nat} (R : List Nat) (hS : 0 ∉ S) :
    scanFirmware (S ++ 0 :: R)
      = (match cobsDecode S with
        | none => (.fail .decodeError, R)
        | some db =>
          match fromBytes db with
          | none => (.fail .deserialization, R)
          | some m => (.gotMsg m, R)) := by
  have htw := takeWhile_split R hS
  have hlen : ¬ S.length = (S ++ 0 :: R).length := by simp
  have hdrop := drop_concat S R
  cases hSR : S ++ 0 :: R with
  | nil => simp at hSR
  | cons b t =>
    rw [hSR] at htw hlen hdrop
    simp only [scanFirmware]
    rw [htw, if_neg hlen, hdrop]

/-- The server scan waits for more data on a short delimiter-free
buffer. -/
theorem scanServer_nodelim {B : List Nat} (h : 0 ∉ B) (hlen : B.length ≤ 4096) :
    scanServer B = (.noMsg, B) := by
  cases hB : B with
  | nil => rfl
  | cons b t =>
    rw [hB] at h hlen
    simp only [scanServer]
    rw [takeWhile_all h, if_pos rfl, if_neg (by omega)]

/-- The firmware scan waits for more data on a short delimiter-free
buffer. -/
theorem scanFirmware_nodelim {B : List Nat} (h : 0 ∉ B) (hlen : B.length ≤ 4096) :
    scanFirmware B = (.noMsg, B) := by
  cases hB : B with
  | nil => rfl
  | cons b t =>
    rw [hB] at h hlen
    simp only [scanFirmware]
    rw [takeWhile_all h, if_pos rfl, if_neg (by omega)]

/-- The server scan clears an over-long delimiter-free buffer and
reports the overflow. -/
theorem scanServer_overflow {B : List Nat} (h : 0 ∉ B) (hlen : B.length > 4096) :
    scanServer B = (.fail .bufferOverflow, []) := by
  cases hB : B with
  | nil => rw [hB] at hlen; simp at hlen
  | cons b t =>
    rw [hB] at h hlen
    simp only [scanServer]
    rw [takeWhile_all h, if_pos rfl, if_pos hlen]

/-- The firmware scan clears an over-long delimiter-free buffer and
reports the overflow. -/
theorem scanFirmware_overflow {B : List Nat} (h : 0 ∉ B) (hlen : B.length > 4096) :
    scanFirmware B = (.fail .bufferOverflow, []) := by
  cases hB : B with
  | nil => rw [hB] at hlen; simp at hlen
  | cons b t =>
    rw [hB] at h hlen
    simp only [scanFirmware]
    rw [takeWhile_all h, if_pos rfl, if_pos hlen]

/-- A frame followed by a tail is a frame body, a delimiter and the
tail. -/
theorem frameBytes_cons (m : Message) (R : List Nat) :
    frameBytes m ++ R = cobsEncode (toBytes m) ++ 0 :: R := by
  simp [frameBytes]

/-- The server scan on a buffer starting with a valid frame emits the
framed message and leaves exactly the bytes after the frame. -/
theorem scanServer_frameBytes (m : Message) (R : List Nat) :
    scanServer (frameBytes m ++ R) = (.gotMsg m, R) := by
  rw [frameBytes_cons]
  exact scanServer_frame (cobsEncode_zero _) (unframe_enc m)

/-- The firmware scan on a buffer starting with a valid frame emits the
framed message and leaves exactly the bytes after the frame. -/
theorem scanFirmware_frameBytes (m : Message) (R : List Nat) :
    scanFirmware (frameBytes m ++ R) = (.gotMsg m, R) := by
  rw [frameBytes_cons]
  rw [scanFirmware_split R (cobsEncode_zero _)]
  simp [cobs_rt, message_rt]

/-- Draining an empty buffer yields nothing. -/
theorem drainN_nil : ∀ fuel, drainN fuel [] = ([], [], []) := by
  intro fuel
  cases fuel with
  | zero => rfl
  | succ f => simp [drainN, scanServer]

/-- Draining a short delimiter-free buffer yields nothing and keeps the
buffer. -/
theorem drainN_nodelim {B : List Nat} (h : 0 ∉ B) (hlen : B.length ≤ 4096) :
    ∀ fuel, drainN fuel B = ([], [], B) := by
  intro fuel
  cases fuel with
  | zero => rfl
  | succ f => simp [drainN, scanServer_nodelim h hlen]

/-- Draining a buffer of whole frames followed by a short delimiter-free
remainder emits exactly the framed messages in order, no errors, and
keeps the remainder. -/
theorem drainN_frames : ∀ (ms : List Message) (fuel : Nat) (P : List Nat),
    0 ∉ P → P.length ≤ 4096 → ms.length < fuel →
    drainN fuel (framesOf ms ++ P) = (ms, [], P) := by
  intro ms
  induction ms with
  | nil =>
    intro fuel P hP hlen hfuel
    simpa [framesOf] using drainN_nodelim hP hlen fuel
  | cons m ms2 ih =>
    intro fuel P hP hlen hfuel
    cases fuel with
    | zero => simp at hfuel
    | succ f =>
      have hbuf : framesOf (m :: ms2) ++ P = frameBytes m ++ (framesOf ms2 ++ P) := by
        simp [framesOf]
      rw [hbuf]
      simp only [drainN, scanServer_frameBytes]
      rw [ih f P hP hlen (by simp at hfuel; omega)]

/-- A zero-free list that, extended by some tail, equals `S ++ 0 :: U`
fits within `S`. -/
theorem zf_bound : ∀ {S : List Nat} (R : List Nat) {T U : List Nat},
    0 ∉ R → R ++ T = S ++ 0 :: U → R.length ≤ S.length := by
  intro S
  induction S with
  | nil =>
    intro R T U hR h
    cases R with
    | nil => simp
    | cons r R2 =>
      simp only [List.cons_append, List.nil_append] at h
      have : r = 0 := (List.cons.injEq _ _ _ _).mp h |>.1
      exact absurd (by simp [this]) hR
  | cons s S2 ih =>
    intro R T U hR h
    cases R with
    | nil => simp
    | cons r R2 =>
      simp only [List.cons_append] at h
      have h2 := (List.cons.injEq _ _ _ _).mp h
      have hR2 : 0 ∉ R2 := fun hc => hR (List.mem_cons_of_mem _ hc)
      have := ih R2 hR2 h2.2
      simp
      omega

/-- Frames of a concatenation are the concatenated frames. -/
theorem framesOf_append : ∀ (ms1 ms2 : List Message),
    framesOf (ms1 ++ ms2) = framesOf ms1 ++ framesOf ms2 := by
  intro ms1 ms2
  induction ms1 with
  | nil => simp [framesOf]
  | cons m t ih => simp [framesOf, ih]

/-- Every prefix of a frame stream splits into whole frames followed by
a zero-free partial frame body. -/
theorem frames_decomp : ∀ (msgs : List Message) (Q T : List Nat),
    Q ++ T = framesOf msgs →
    ∃ ms1 ms2 R, msgs = ms1 ++ ms2 ∧ Q = framesOf ms1 ++ R ∧ 0 ∉ R ∧
      ∃ T2, R ++ T2 = framesOf ms2 := by
  intro msgs
  induction msgs with
  | nil =>
    intro Q T h
    simp only [framesOf] at h
    have hQ : Q = [] := (List.append_eq_nil.mp h).1
    exact ⟨[], [], [], by simp, by simp [framesOf, hQ], by simp, [], by simp [framesOf]⟩
  | cons m ms ih =>
    intro Q T h
    have hfr : framesOf (m :: ms) = cobsEncode (toBytes m) ++ 0 :: framesOf ms := by
      simp [framesOf, frameBytes]
    rw [hfr] at h
    by_cases hq : Q.length ≤ (cobsEncode (toBytes m)).length
    · refine ⟨[], m :: ms, Q, by simp, by simp [framesOf], ?_, T, by rw [hfr]; exact h⟩
      intro hmem
      have h1 := congrArg (List.take Q.length) h
      rw [List.take_left] at h1
      rw [List.take_append_eq_append_take] at h1
      rw [show Q.length - (cobsEncode (toBytes m)).length = 0 by omega] at h1
      simp only [List.take_zero, List.append_nil] at h1
      rw [h1] at hmem
      exact cobsEncode_zero (toBytes m) (List.take_subset _ _ hmem)
    · push_neg at hq
      have htake : Q.take ((cobsEncode (toBytes m)).length + 1)
          = cobsEncode (toBytes m) ++ [0] := by
        have h1 := congrArg (List.take ((cobsEncode (toBytes m)).length + 1)) h
        rw [List.take_append_eq_append_take,
          show (cobsEncode (toBytes m)).length + 1 - Q.length = 0 by omega] at h1
        simp only [List.take_zero, List.append_nil] at h1
        rw [show cobsEncode (toBytes m) ++ 0 :: framesOf ms
          = (cobsEncode (toBytes m) ++ [0]) ++ framesOf ms by simp] at h1
        rw [List.take_append_eq_append_take] at h1
        rw [@List.take_of_length_le _ ((cobsEncode (toBytes m)).length + 1)
          (cobsEncode (toBytes m) ++ [0]) (by simp)] at h1
        simpa using h1
      have hdrop : Q.drop ((cobsEncode (toBytes m)).length + 1) ++ T = framesOf ms := by
        have h1 := congrArg (List.drop ((cobsEncode (toBytes m)).length + 1)) h
        rw [List.drop_append_eq_append_drop,
          show (cobsEncode (toBytes m)).length + 1 - Q.length = 0 by omega] at h1
        simp only [List.drop_zero] at h1
        rw [drop_concat] at h1
        exact h1
      obtain ⟨ms1, ms2, R, hms, hQ2, hR, T2, hT2⟩ :=
        ih (Q.drop ((cobsEncode (toBytes m)).length + 1)) T hdrop
      refine ⟨m :: ms1, ms2, R, by simp [hms], ?_, hR, T2, hT2⟩
      have hQsplit := List.take_append_drop ((cobsEncode (toBytes m)).length + 1) Q
      rw [htake, hQ2] at hQsplit
      rw [← hQsplit]
      simp [framesOf, frameBytes]

/-- A frame stream is at least as long as its message list. -/
theorem framesOf_len_ge : ∀ ms : List Message, ms.length ≤ (framesOf ms).length := by
  intro ms
  induction ms with
  | nil => simp [framesOf]
  | cons m t ih =>
    simp only [framesOf, frameBytes, List.length_cons, List.length_append]
    simp
    omega

/-- Chunk-independent frame assembly: feeding the server assembler any
chunking of a frame stream, starting from a zero-free buffered prefix of
that stream, emits exactly the framed messages in order with no errors
and ends with an empty buffer, provided every stuffed frame body fits
under the 4096-byte cap. -/
theorem runChunks_frames : ∀ (cs : List (List Nat)) (P : List Nat) (msgs : List Message),
    (∀ m ∈ msgs, (cobsEncode (toBytes m)).length ≤ 4096) →
    0 ∉ P →
    P ++ cs.flatten = framesOf msgs →
    runChunks cs P = (msgs, [], []) := by
  intro cs
  induction cs with
  | nil =>
    intro P msgs hcap hP h
    simp only [List.flatten_nil, List.append_nil] at h
    cases msgs with
    | nil =>
      simp only [framesOf] at h
      simp [runChunks, h]
    | cons m ms =>
      exfalso
      apply hP
      rw [h]
      simp [framesOf, frameBytes]
  | cons c cs2 ih =>
    intro P msgs hcap hP h
    have hpre : (P ++ c) ++ cs2.flatten = framesOf msgs := by
      simpa [List.append_assoc] using h
    obtain ⟨ms1, ms2, R, hms, hQ, hR, T2, hT2⟩ :=
      frames_decomp msgs (P ++ c) cs2.flatten hpre
    have hRlen : R.length ≤ 4096 := by
      cases ms2 with
      | nil =>
        have h0 : R ++ T2 = [] := by simpa [framesOf] using hT2
        have hRnil : R = [] := (List.append_eq_nil.mp h0).1
        simp [hRnil]
      | cons m2 ms3 =>
        have hfr : framesOf (m2 :: ms3) = cobsEncode (toBytes m2) ++ 0 :: framesOf ms3 := by
          simp [framesOf, frameBytes]
        rw [hfr] at hT2
        have hb := zf_bound R hR hT2
        have hm2 : m2 ∈ msgs := by rw [hms]; simp
        have := hcap m2 hm2
        omega
    have hfuel2 : ms1.length < (framesOf ms1 ++ R).length + 1 := by
      have := framesOf_len_ge ms1
      simp
      omega
    have hdrain : drainN ((P ++ c).length + 1) (P ++ c) = (ms1, [], R) := by
      rw [hQ]
      exact drainN_frames ms1 _ R hR hRlen hfuel2
    have hrec : runChunks cs2 R = (ms2, [], []) := by
      apply ih R ms2
        (fun m hm => hcap m (by rw [hms]; exact List.mem_append.mpr (Or.inr hm))) hR
      have h2 : (framesOf ms1 ++ R) ++ cs2.flatten = framesOf ms1 ++ framesOf ms2 := by
        rw [← hQ, hpre, hms, framesOf_append]
      rw [List.append_assoc] at h2
      exact List.append_cancel_left h2
    simp only [runChunks]
    rw [hdrain, hrec]
    simp [hms]

/-- Draining an over-long delimiter-free buffer surfaces the overflow
once and clears the buffer. -/
theorem drainN_overflow {B : List Nat} (h : 0 ∉ B) (hlen : B.length > 4096) :
    ∀ fuel, drainN (fuel + 1) B = ([], [.bufferOverflow], []) := by
  intro fuel
  simp [drainN, scanServer_overflow h hlen, drainN_nil]

/-- The error log of a chunked run extends the error log of its first
drain. -/
theorem runChunks_cons_errors (c : List Nat) (cs : List (List Nat)) (buf : List Nat) :
    (runChunks (c :: cs) buf).2.1
      = (drainN ((buf ++ c).length + 1) (buf ++ c)).2.1
        ++ (runChunks cs (drainN ((buf ++ c).length + 1) (buf ++ c)).2.2).2.1 := by
  simp [runChunks]

/-- Feeding zero-free bytes one at a time into a zero-free buffer until
4097 bytes have accumulated produces a `BufferOverflow` error: the error
log of the run is non-empty whatever arrives afterwards. -/
theorem oneByte_overflow : ∀ (bs B : List Nat) (rest : List (List Nat)),
    0 ∉ B → 0 ∉ bs → B.length + bs.length = 4097 → bs ≠ [] →
    (runChunks (bs.map (fun b => [b]) ++ rest) B).2.1 ≠ [] := by
  intro bs
  induction bs with
  | nil => intro B rest hB hbs hlen hne; exact absurd rfl hne
  | cons b bs2 ih =>
    intro B rest hB hbs hlen hne
    have hb : b ≠ 0 := by intro hc; exact hbs (by simp [hc])
    have hB2 : 0 ∉ B ++ [b] := by
      intro hc
      rcases List.mem_append.mp hc with hc | hc
      · exact hB hc
      · simp at hc; exact hb hc.symm
    have hmap : (b :: bs2).map (fun x => [x]) ++ rest
        = [b] :: (bs2.map (fun x => [x]) ++ rest) := by simp
    rw [hmap, runChunks_cons_errors]
    cases bs2 with
    | nil =>
      have hlen2 : (B ++ [b]).length > 4096 := by simp at hlen ⊢; omega
      rw [drainN_overflow hB2 hlen2]
      simp
    | cons b2 bs3 =>
      have hlen2 : (B ++ [b]).length ≤ 4096 := by simp at hlen ⊢; omega
      rw [drainN_nodelim hB2 hlen2]
      simp only [List.nil_append]
      exact ih (B ++ [b]) rest hB2
        (fun hc => hbs (List.mem_cons_of_mem _ hc))
        (by simp at hlen ⊢; omega)
        (by simp)

/-- A single read containing one whole valid frame yields exactly the one
framed message, no errors, and an empty buffer. -/
theorem runChunks_single (m : Message) :
    runChunks [frameBytes m] [] = ([m], [], []) := by
  have hfr : frameBytes m = framesOf [m] ++ [] := by simp [framesOf]
  have hdrain : drainN ((frameBytes m).length + 1) (frameBytes m) = ([m], [], []) := by
    rw [hfr]
    exact drainN_frames [m] _ [] (by simp) (by simp) (by simp [framesOf, frameBytes])
  simp [runChunks, hdrain]

/-- The encoded payload of `msgBig` is 4203 bytes. -/
theorem toBytes_msgBig_len : (toBytes msgBig).length = 4203 := by
  have h1 : (varintEnc 1).length = 1 := by decide
  have h2 : (varintEnc 1400).length = 2 := by decide
  simp only [msgBig, toBytes, List.length_replicate]
  rw [List.length_append, List.length_append, h1, h2, List.length_flatten]
  rw [List.map_replicate, List.map_replicate, List.sum_replicate, smul_eq_mul]
  norm_num [encRgb]

/-- The stuffed frame body of `msgBig` exceeds the 4096-byte cap. -/
theorem stuffedBig_len : 4204 ≤ (cobsEncode (toBytes msgBig)).length := by
  have h := cobsEncode_len (toBytes msgBig)
  rw [toBytes_msgBig_len] at h
  omega

/-- The first 4097 frame bytes of `msgBig` are delimiter-free. -/
theorem frameBig_take : 0 ∉ (frameBytes msgBig).take 4097
    ∧ ((frameBytes msgBig).take 4097).length = 4097 := by
  have hs := stuffedBig_len
  constructor
  · intro hc
    rw [frameBytes, List.take_append_eq_append_take,
      show 4097 - (cobsEncode (toBytes msgBig)).length = 0 by omega] at hc
    simp only [List.take_zero, List.append_nil] at hc
    exact cobsEncode_zero (toBytes msgBig) (List.take_subset _ _ hc)
  · rw [List.length_take]
    simp [frameBytes]
    omega

/-- A completed send loop has written exactly the remaining bytes, in
order. -/
theorem sendLoopF_some : ∀ fuel (f : Nat → WriteOutcome) i (rem w : List Nat),
    sendLoopF fuel f i rem = some w → w = rem := by
  intro fuel
  induction fuel with
  | zero => intro f i rem w h; simp [sendLoopF] at h
  | succ fl ih =>
    intro f i rem w h
    cases rem with
    | nil =>
      simp only [sendLoopF] at h
      exact (Option.some_inj.mp h).symm
    | cons x r =>
      simp only [sendLoopF] at h
      cases hf : f i with
      | wErr => rw [hf] at h; simp at h
      | accepted n =>
        cases n with
        | zero => rw [hf] at h; simp at h
        | succ n2 =>
          simp only [hf] at h
          cases hrec : sendLoopF fl f (i + 1) ((x :: r).drop (n2 + 1)) with
          | none => rw [hrec] at h; simp at h
          | some w2 =>
            rw [hrec] at h
            have hw := Option.some_inj.mp h
            rw [← hw, ih f (i + 1) _ w2 hrec, List.take_append_drop]

/-- A frame is never empty (it ends with the delimiter). -/
theorem frameBytes_ne_nil (m : Message) : frameBytes m ≠ [] := by
  simp [frameBytes]

/-- `receive` gives up with `Timeout` when every poll within the allowed
budget is empty. -/
theorem receiveLoop_timeout : ∀ (fuel : Nat) (f : Nat → TryOut) (i : Nat),
    (∀ j, j ≤ fuel → f (i + j) = .nothing) →
    receiveLoop f fuel i = .error .timeout := by
  intro fuel
  induction fuel with
  | zero =>
    intro f i h
    have h0 := h 0 (by omega)
    simp only [Nat.add_zero] at h0
    simp [receiveLoop, h0]
  | succ fl ih =>
    intro f i h
    have h0 := h 0 (by omega)
    simp only [Nat.add_zero] at h0
    have hrec := ih f (i + 1) (fun j hj => by
      have h2 := h (j + 1) (by omega)
      rw [show i + (j + 1) = i + 1 + j by omega] at h2
      exact h2)
    simp [receiveLoop, h0, hrec]

/-- `receive` returns the outcome of the first non-empty poll: the first
message as `Ok`, or the first error immediately. -/
theorem receiveLoop_first : ∀ (k : Nat) (fuel : Nat) (f : Nat → TryOut) (i : Nat),
    k ≤ fuel →
    (∀ j, j < k → f (i + j) = .nothing) →
    (∀ m, f (i + k) = .msg m → receiveLoop f fuel i = .ok m)
      ∧ (∀ e, f (i + k) = .failed e → receiveLoop f fuel i = .error e) := by
  intro k
  induction k with
  | zero =>
    intro fuel f i hk hj
    constructor
    · intro m hm
      simp only [Nat.add_zero] at hm
      cases fuel <;> simp [receiveLoop, hm]
    · intro e he
      simp only [Nat.add_zero] at he
      cases fuel <;> simp [receiveLoop, he]
  | succ k2 ih =>
    intro fuel f i hk hj
    cases fuel with
    | zero => omega
    | succ fl =>
      have h0 := hj 0 (by omega)
      simp only [Nat.add_zero] at h0
      have hrec := ih fl f (i + 1) (by omega) (fun j hjlt => by
        have := hj (j + 1) (by omega)
        rw [show i + (j + 1) = i + 1 + j by omega] at this
        exact this)
      constructor
      · intro m hm
        rw [show i + (k2 + 1) = i + 1 + k2 by omega] at hm
        simp [receiveLoop, h0]
        exact hrec.1 m hm
      · intro e he
        rw [show i + (k2 + 1) = i + 1 + k2 by omega] at he
        simp [receiveLoop, h0]
        exact hrec.2 e he

/-- A buffer containing a delimiter is not fully consumed by the
delimiter scan. -/
theorem takeWhile_lt_of_mem : ∀ {B : List Nat}, 0 ∈ B →
    (B.takeWhile (fun x => x != 0)).length < B.length := by
  intro B
  induction B with
  | nil => intro h; simp at h
  | cons b t ih =>
    intro h
    by_cases hb : b = 0
    · rw [hb, List.takeWhile_cons_of_neg (by simp)]
      simp
    · have ht : 0 ∈ t := by
        rcases List.mem_cons.mp h with hc | hc
        · exact absurd hc.symm hb
        · exact hc
      rw [List.takeWhile_cons_of_pos (by simpa using hb)]
      simp only [List.length_cons]
      exact Nat.succ_lt_succ (ih ht)

/-- Server resync: when every candidate frame tried while consuming the
junk prefix fails to decode, the scan of `junk ++ tail` proceeds as the
scan of `tail` (the junk is consumed one byte at a time within the one
`try_receive` call). -/
theorem scanServer_junk : ∀ (junk tail : List Nat),
    0 ∈ tail →
    (∀ i, i < junk.length →
      unframe ((junk.drop i ++ tail).takeWhile (fun x => x != 0)) = none) →
    scanServer (junk ++ tail) = scanServer tail := by
  intro junk
  induction junk with
  | nil => intro tail h hj; simp
  | cons j t ih =>
    intro tail h hj
    have hmem : 0 ∈ (j :: t) ++ tail := by simp [h]
    have hlt := takeWhile_lt_of_mem hmem
    have hu := hj 0 (by simp)
    simp only [List.drop_zero] at hu
    have hstep : scanServer ((j :: t) ++ tail) = scanServer (t ++ tail) := by
      rw [List.cons_append]
      simp only [scanServer]
      rw [if_neg (by rw [← List.cons_append]; omega)]
      rw [show ((j :: t) ++ tail).takeWhile (fun x => x != 0)
        = (j :: (t ++ tail)).takeWhile (fun x => x != 0) by rw [List.cons_append]] at hu
      rw [hu]
    rw [hstep]
    exact ih tail h (fun i hi => by
      have := hj (i + 1) (by simp; omega)
      simpa using this)

/-- Claim C1: for every constructible Message value (Heartbeat, SetLeds
with any RGB sequence, Log with any of the five levels and any content),
decoding the bytes produced by encoding yields an equal value:
`Message::from_bytes(Message::to_bytes(m)) == Ok(m)`. -/
theorem c1_postcard_roundtrip (m : Message) (_hwf : m.wf) :
    fromBytes (toBytes m) = some m :=
  message_rt m

theorem c1_witness :
    Message.wf (.log .info [104, 105])
      ∧ fromBytes (toBytes (.log .info [104, 105])) = some (.log .info [104, 105]) :=
  ⟨by decide, c1_postcard_roundtrip (.log .info [104, 105]) (by decide)⟩

/-- Claim C2: the framed byte sequence produced by the send path contains
the byte 0x00 in exactly one position, the final byte: the stuffed
payload before the trailing marker is free of 0x00. -/
theorem c2_frame_delimiter (m : Message) :
    (frameBytes m).count 0 = 1 ∧ (frameBytes m).getLast? = some 0 := by
  constructor
  · rw [frameBytes, List.count_append]
    rw [List.count_eq_zero.mpr (cobsEncode_zero (toBytes m))]
    simp
  · rw [frameBytes]
    exact List.getLast?_concat _

/-- Claim C3 counterexample: the claim as stated fails on the server
variant: for the garbage `[1, 1, 0]` (arbitrary bytes with one embedded
0x00) followed by the valid frame of `SetLeds []`, repeated `try_receive`
calls emit TWO messages — the garbage bytes happen to form a valid
Heartbeat frame — not "exactly the one valid message". -/
theorem c3_counterexample :
    frameBytes (.setLeds []) = [2, 1, 1, 0]
      ∧ drainN 8 ([1, 1, 0] ++ frameBytes (.setLeds []))
        = ([.heartbeat, .setLeds []], [], [])
      ∧ ([Message.heartbeat, .setLeds []] ≠ [.setLeds []]) :=
  ⟨by decide, by decide, by decide⟩

/-- Claim C3 amended: in the server variant, when no resync candidate
formed while consuming the garbage (each scanned up to the next
delimiter) decodes as a frame, a single `try_receive` call silently
consumes the garbage one byte at a time and emits exactly the one valid
message with no error; in the firmware variant, with the garbage's
embedded 0x00 as its final byte and the garbage body not decoding, the
whole garbage including its delimiter is drained at once, one
DecodeError/Deserialization error is surfaced, and the next call emits
the valid message. -/
theorem c3_resync_amended (junk Z : List Nat) (m : Message)
    (hjunk : ∀ i, i < junk.length →
      unframe ((junk.drop i ++ frameBytes m).takeWhile (fun x => x != 0)) = none)
    (hZ : 0 ∉ Z) (hZu : unframe Z = none) :
    scanServer (junk ++ frameBytes m) = (.gotMsg m, [])
      ∧ (∃ e, scanFirmware ((Z ++ [0]) ++ frameBytes m) = (.fail e, frameBytes m))
      ∧ scanFirmware (frameBytes m) = (.gotMsg m, []) := by
  refine ⟨?_, ?_, ?_⟩
  · rw [scanServer_junk junk (frameBytes m) (by simp [frameBytes]) hjunk]
    simpa using scanServer_frameBytes m []
  · rw [show (Z ++ [0]) ++ frameBytes m = Z ++ 0 :: frameBytes m by simp]
    rw [scanFirmware_split (frameBytes m) hZ]
    cases hc : cobsDecode Z with
    | none => exact ⟨.decodeError, rfl⟩
    | some db =>
      cases hf : fromBytes db with
      | none => exact ⟨.deserialization, by simp [hf]⟩
      | some m2 =>
        exfalso
        simp [unframe, hc, hf] at hZu
  · simpa using scanFirmware_frameBytes m []

theorem c3_witness :
    scanServer ([7] ++ frameBytes .heartbeat) = (.gotMsg .heartbeat, [])
      ∧ (∃ e, scanFirmware (([5] ++ [0]) ++ frameBytes .heartbeat)
          = (.fail e, frameBytes .heartbeat))
      ∧ scanFirmware (frameBytes .heartbeat) = (.gotMsg .heartbeat, []) :=
  c3_resync_amended [7] [5] .heartbeat (by decide) (by decide) (by decide)

/-- Claim C4 counterexample: the result DOES depend on the chunking for
an oversized frame: the one valid frame of `msgBig` (stuffed body longer
than the 4096-byte cap) is decoded from a single read, but fed one byte
at a time the cap fires before the delimiter arrives and the run reports
a BufferOverflow error. -/
theorem c4_counterexample :
    runChunks [frameBytes msgBig] [] = ([msgBig], [], [])
      ∧ (runChunks ((frameBytes msgBig).map (fun b => [b])) []).2.1 ≠ [] := by
  constructor
  · exact runChunks_single msgBig
  · have htake := frameBig_take
    have hmap : (frameBytes msgBig).map (fun b => [b])
        = ((frameBytes msgBig).take 4097).map (fun b => [b])
          ++ ((frameBytes msgBig).drop 4097).map (fun b => [b]) := by
      rw [← List.map_append, List.take_append_drop]
    rw [hmap]
    refine oneByte_overflow ((frameBytes msgBig).take 4097) []
      (((frameBytes msgBig).drop 4097).map (fun b => [b]))
      (by simp) htake.1 (by simp [htake.2]) ?_
    intro hc
    have h2 := htake.2
    rw [hc] at h2
    simp at h2

/-- Claim C4 amended: for every sequence of messages whose stuffed frame
bodies are each at most 4096 bytes (the receive-buffer cap), feeding the
exact concatenation of their frames to the server assembler in any
chunking whatsoever yields exactly the N messages, equal to the
originals and in order, with no errors and an empty final buffer — a
result independent of the chunking. -/
theorem c4_chunk_independence (msgs : List Message) (cs : List (List Nat))
    (hcap : ∀ m ∈ msgs, (cobsEncode (toBytes m)).length ≤ 4096)
    (hcs : cs.flatten = framesOf msgs) :
    runChunks cs [] = (msgs, [], []) :=
  runChunks_frames cs [] msgs hcap (by simp) (by simpa using hcs)

theorem c4_witness :
    (∀ m ∈ [Message.heartbeat, .setLeds [⟨1, 2, 3⟩]],
      (cobsEncode (toBytes m)).length ≤ 4096)
      ∧ runChunks
          ((framesOf [Message.heartbeat, .setLeds [⟨1, 2, 3⟩]]).map (fun b => [b])) []
        = ([Message.heartbeat, .setLeds [⟨1, 2, 3⟩]], [], []) :=
  ⟨by decide, c4_chunk_independence _ _ (by decide) (by decide)⟩

/-- Claim C5: a receive buffer of more than 4096 bytes containing no
0x00 makes `try_receive` clear it in full and return BufferOverflow; the
error is returned exactly once (the next poll on the cleared buffer
reports nothing), and a subsequent well-formed frame decodes normally;
in both variants. -/
theorem c5_overflow (B : List Nat) (m : Message) (rest : List Nat)
    (hB : 0 ∉ B) (hlen : B.length > 4096) :
    scanServer B = (.fail .bufferOverflow, [])
      ∧ scanFirmware B = (.fail .bufferOverflow, [])
      ∧ scanServer [] = (.noMsg, [])
      ∧ scanFirmware [] = (.noMsg, [])
      ∧ scanServer (frameBytes m ++ rest) = (.gotMsg m, rest)
      ∧ scanFirmware (frameBytes m ++ rest) = (.gotMsg m, rest) :=
  ⟨scanServer_overflow hB hlen, scanFirmware_overflow hB hlen, rfl, rfl,
    scanServer_frameBytes m rest, scanFirmware_frameBytes m rest⟩

theorem c5_witness :
    0 ∉ List.replicate 4097 1 ∧ (List.replicate 4097 1).length > 4096
      ∧ scanServer (List.replicate 4097 1) = (.fail .bufferOverflow, []) := by
  have h1 : 0 ∉ List.replicate 4097 1 := by
    intro h
    have h2 := (List.mem_replicate.mp h).2
    omega
  have h2 : (List.replicate 4097 1).length > 4096 := by
    rw [List.length_replicate]
    omega
  exact ⟨h1, h2, (c5_overflow (List.replicate 4097 1) .heartbeat [] h1 h2).1⟩

/-- Claim C6: `send` loops over partial writes, advancing past accepted
bytes, until the full frame is written and flushed (then Ok, the whole
frame's bytes having been handed over in order), while a zero-byte
write, a write error or a flush failure each yield WriteError. -/
theorem c6_send (f : Nat → WriteOutcome) (flushOk : Bool) (m : Message) :
    (∀ w, send f flushOk m = .ok w → w = frameBytes m ∧ flushOk = true)
      ∧ (send f flushOk m = .ok (frameBytes m)
          ∨ send f flushOk m = .error .writeError)
      ∧ (f 0 = .wErr → send f flushOk m = .error .writeError)
      ∧ (f 0 = .accepted 0 → send f flushOk m = .error .writeError)
      ∧ (flushOk = false → send f flushOk m = .error .writeError) := by
  refine ⟨?_, ?_, ?_, ?_, ?_⟩
  · intro w h
    cases hl : sendLoop f (frameBytes m) with
    | none => simp [send, hl] at h
    | some w2 =>
      cases flushOk with
      | false => simp [send, hl] at h
      | true =>
        simp [send, hl] at h
        exact ⟨by rw [← h]; exact sendLoopF_some _ f 0 _ w2 hl, rfl⟩
  · cases hl : sendLoop f (frameBytes m) with
    | none => right; simp [send, hl]
    | some w2 =>
      cases flushOk with
      | false => right; simp [send, hl]
      | true =>
        left
        simp [send, hl]
        exact sendLoopF_some _ f 0 _ w2 hl
  · intro hw
    have hnone : sendLoop f (frameBytes m) = none := by
      rcases hfb : frameBytes m with _ | ⟨x, r⟩
      · exact absurd hfb (frameBytes_ne_nil m)
      · simp [sendLoop, sendLoopF, hw]
    simp [send, hnone]
  · intro hw
    have hnone : sendLoop f (frameBytes m) = none := by
      rcases hfb : frameBytes m with _ | ⟨x, r⟩
      · exact absurd hfb (frameBytes_ne_nil m)
      · simp [sendLoop, sendLoopF, hw]
    simp [send, hnone]
  · intro hfl
    cases hl : sendLoop f (frameBytes m) with
    | none => simp [send, hl]
    | some w2 => simp [send, hl, hfl]

theorem c6_witness :
    send (fun _ => .accepted 2) true .heartbeat = .ok (frameBytes .heartbeat)
      ∧ (frameBytes .heartbeat = frameBytes .heartbeat ∧ true = true) := by
  have hok : send (fun _ => .accepted 2) true .heartbeat
      = .ok (frameBytes .heartbeat) := by decide
  exact ⟨hok, (c6_send (fun _ => .accepted 2) true .heartbeat).1 (frameBytes .heartbeat) hok⟩

/-- Claim C7: the blocking `receive` polls `try_receive` repeatedly and
returns the first message produced; when every poll within the
deadline's budget is empty it returns Timeout; an error from
`try_receive` is returned immediately.  Wall-clock time is modelled as
the number of further empty polls the deadline allows (the server sleeps
10 ms between empty polls; the firmware loops without sleeping). -/
theorem c7_receive (f : Nat → TryOut) (fuel i k : Nat)
    (hk : k ≤ fuel) (hempty : ∀ j, j < k → f (i + j) = .nothing) :
    ((∀ j, j ≤ fuel → f (i + j) = .nothing) →
      receiveLoop f fuel i = .error .timeout)
      ∧ (∀ m, f (i + k) = .msg m → receiveLoop f fuel i = .ok m)
      ∧ (∀ e, f (i + k) = .failed e → receiveLoop f fuel i = .error e) :=
  ⟨receiveLoop_timeout fuel f i, (receiveLoop_first k fuel f i hk hempty).1,
    (receiveLoop_first k fuel f i hk hempty).2⟩

theorem c7_witness :
    (2 ≤ 5 : Prop)
      ∧ receiveLoop (fun j => if j = 2 then .msg .heartbeat else .nothing) 5 0
        = .ok .heartbeat := by
  have h := c7_receive (fun j => if j = 2 then .msg .heartbeat else .nothing)
    5 0 2 (by decide) (by decide)
  exact ⟨by decide, h.2.1 .heartbeat (by decide)⟩

/-- Claim C8 counterexample: the claim as stated fails on the server
variant: a failing transport read is not merely logged with the poll
yielding no message — `try_receive` returns the ReadError to its
caller. -/
theorem c8_counterexample :
    serverTryReceive .readErr [] = (.fail .readError, [])
      ∧ ((.fail .readError : PollOut) ≠ .noMsg) :=
  ⟨rfl, by decide⟩

/-- Claim C8 amended: a would-block/timeout read outcome is treated as
"no data available" and never reported as an error in either variant; a
genuine read failure is swallowed by the firmware, whose poll proceeds
exactly as with no data (and may still yield a buffered message), while
the server returns it as ReadError from `try_receive`, leaving the
buffer intact — its caller logs the error and polls again. -/
theorem c8_read_errors (buf : List Nat) :
    serverTryReceive .readErr buf = (.fail .readError, buf)
      ∧ firmwareTryReceive .readErr buf = firmwareTryReceive .noData buf
      ∧ serverTryReceive .timedOut buf = serverTryReceive .noData buf
      ∧ firmwareTryReceive .timedOut buf = firmwareTryReceive .noData buf :=
  ⟨rfl, rfl, rfl, rfl⟩

/-- Claim C9: one `try_receive` call returns at most one message even
when the buffer holds several complete frames: it removes exactly the
first valid frame, its bytes up to and including the delimiter, from the
front, and leaves every later byte in place; in both variants. -/
theorem c9_single_frame (m : Message) (rest : List Nat) :
    scanServer (frameBytes m ++ rest) = (.gotMsg m, rest)
      ∧ scanFirmware (frameBytes m ++ rest) = (.gotMsg m, rest) :=
  ⟨scanServer_frameBytes m rest, scanFirmware_frameBytes m rest⟩

/-- Claim C10: in the firmware variant a complete frame that fails COBS
decoding or deserialization has already been removed, delimiter
included, when the DecodeError or Deserialization error is returned: the
error is surfaced once per corrupted frame, the buffer then begins at
the next frame boundary, and a following valid frame decodes
normally. -/
theorem c10_firmware_corrupt (Z R2 rest : List Nat) (m : Message)
    (hZ : 0 ∉ Z) :
    (cobsDecode Z = none →
      scanFirmware (Z ++ 0 :: R2) = (.fail .decodeError, R2))
      ∧ (∀ db, cobsDecode Z = some db → fromBytes db = none →
        scanFirmware (Z ++ 0 :: R2) = (.fail .deserialization, R2))
      ∧ scanFirmware (frameBytes m ++ rest) = (.gotMsg m, rest) := by
  refine ⟨?_, ?_, scanFirmware_frameBytes m rest⟩
  · intro hc
    rw [scanFirmware_split R2 hZ, hc]
  · intro db hdb hf
    rw [scanFirmware_split R2 hZ, hdb]
    simp [hf]

theorem c10_witness :
    0 ∉ ([5] : List Nat)
      ∧ cobsDecode [5] = none
      ∧ scanFirmware ([5] ++ 0 :: []) = (.fail .decodeError, []) := by
  refine ⟨by decide, by decide, ?_⟩
  exact (c10_firmware_corrupt [5] [] [] .heartbeat (by decide)).1 (by decide)
